import Mathlib

/-!
Verification of the title-deduplication and metadata-resolution pipeline of
`src/utils/paper_utils.py`.

Modelling conventions:
* Python strings are modelled as `List Char` (`Str`); Python's per-character
  case conversion and alphanumeric test are modelled by `Char.toLower` and
  `Char.isAlphanum` (the single-character ASCII case rule).
* Python floats are modelled exactly: similarity values live in `ℝ` (cosine
  similarity involves square roots), count vectors in `ℚ`.
* `str.split`, `str.replace` and `str.join` are modelled by `pySplit`,
  `pyReplace` and `joinSep`, which perform the same non-overlapping
  left-to-right scan as CPython.
* Fallible operations (KeyError, TypeError/AttributeError, scikit-learn's
  "empty vocabulary" ValueError) are modelled with `Except`.
-/

abbrev Str := List Char

/-- Helper for `pySplit`: prepend a character to the first chunk of a split
result. -/
def consHead (c : Char) : List Str → List Str
  | [] => [[c]]
  | chunk :: more => (c :: chunk) :: more

/-- Python `s.split(sep)` for a nonempty separator `sep`: scan left to right,
cutting at each non-overlapping occurrence of `sep`.  (CPython rejects an
empty separator; with `sep = []` this model never cuts.) -/
def pySplit (sep : Str) : Str → List Str
  | [] => [[]]
  | c :: rest =>
    if h : sep ≠ [] ∧ sep.isPrefixOf (c :: rest) then
      [] :: pySplit sep ((c :: rest).drop sep.length)
    else
      consHead c (pySplit sep rest)
termination_by s => s.length
decreasing_by
  · have hle : sep.length ≤ (c :: rest).length := (List.isPrefixOf_iff_prefix.mp h.2).length_le
    have h1 : 0 < sep.length := List.length_pos.mpr h.1
    simp only [List.length_drop]
    simp at hle ⊢
    omega
  · simp

/-- Python `s.replace(pat, repl)` for nonempty `pat`: replace each
non-overlapping occurrence, scanning left to right. -/
def pyReplace (pat repl : Str) : Str → Str
  | [] => []
  | c :: rest =>
    if h : pat ≠ [] ∧ pat.isPrefixOf (c :: rest) then
      repl ++ pyReplace pat repl ((c :: rest).drop pat.length)
    else
      c :: pyReplace pat repl rest
termination_by s => s.length
decreasing_by
  · have hle : pat.length ≤ (c :: rest).length := (List.isPrefixOf_iff_prefix.mp h.2).length_le
    have h1 : 0 < pat.length := List.length_pos.mpr h.1
    simp only [List.length_drop]
    simp at hle ⊢
    omega
  · simp

/-- Number of non-overlapping occurrences of `pat` in `s`, counted by the same
left-to-right scan as `pySplit` (this is Python's `s.count(pat)`). -/
def countOcc (pat : Str) : Str → Nat
  | [] => 0
  | c :: rest =>
    if h : pat ≠ [] ∧ pat.isPrefixOf (c :: rest) then
      countOcc pat ((c :: rest).drop pat.length) + 1
    else
      countOcc pat rest
termination_by s => s.length
decreasing_by
  · have hle : pat.length ≤ (c :: rest).length := (List.isPrefixOf_iff_prefix.mp h.2).length_le
    have h1 : 0 < pat.length := List.length_pos.mpr h.1
    simp only [List.length_drop]
    simp at hle ⊢
    omega
  · simp

/-- Python `sep.join(parts)`. -/
def joinSep (sep : Str) : List Str → Str
  | [] => []
  | [x] => x
  | x :: xs => x ++ sep ++ joinSep sep xs

theorem joinSep_cons_cons (sep a b : Str) (t : List Str) :
    joinSep sep (a :: b :: t) = a ++ sep ++ joinSep sep (b :: t) := rfl

theorem pySplit_ne_nil (sep s : Str) : pySplit sep s ≠ [] := by
  induction s using pySplit.induct sep with
  | case1 => simp [pySplit]
  | case2 c rest h ih => rw [pySplit, dif_pos h]; simp
  | case3 c rest h ih =>
    rw [pySplit, dif_neg h]
    cases pySplit sep rest <;> simp [consHead]

theorem pySplit_length (pat s : Str) :
    (pySplit pat s).length = countOcc pat s + 1 := by
  induction s using pySplit.induct pat with
  | case1 => simp [pySplit, countOcc]
  | case2 c rest h ih =>
    rw [pySplit, dif_pos h, countOcc, dif_pos h]
    simp [ih]
  | case3 c rest h ih =>
    rw [pySplit, dif_neg h, countOcc, dif_neg h]
    rcases hsp : pySplit pat rest with _ | ⟨chunk, more⟩
    · exact absurd hsp (pySplit_ne_nil pat rest)
    · rw [hsp] at ih
      simpa [consHead] using ih

theorem pySplit_join (sep s : Str) : joinSep sep (pySplit sep s) = s := by
  induction s using pySplit.induct sep with
  | case1 => simp [pySplit, joinSep]
  | case2 c rest h ih =>
    rw [pySplit, dif_pos h]
    rcases hsp : pySplit sep ((c :: rest).drop sep.length) with _ | ⟨chunk, more⟩
    · exact absurd hsp (pySplit_ne_nil _ _)
    · rw [hsp] at ih
      rw [joinSep_cons_cons]
      simp only [List.nil_append, ih]
      obtain ⟨t, ht⟩ := List.isPrefixOf_iff_prefix.mp h.2
      rw [← ht, List.drop_left]
  | case3 c rest h ih =>
    rw [pySplit, dif_neg h]
    rcases hsp : pySplit sep rest with _ | ⟨chunk, more⟩
    · exact absurd hsp (pySplit_ne_nil _ _)
    · rw [hsp] at ih
      rcases more with _ | ⟨m, ms⟩
      · simpa [consHead, joinSep] using ih
      · rw [consHead, joinSep_cons_cons]
        rw [joinSep_cons_cons] at ih
        simp only [List.cons_append, List.append_assoc] at *
        rw [← ih]

/-!
`TextNormalizer` (source: `preprocess`, `reformat_text`).
-/

/-- Per-character transformation of `preprocess`: lower-case an alphanumeric
character, map any other character to a single space (the Python expression
`c.lower() if c.isalnum() else " "`). -/
def pyCharMap (c : Char) : Char :=
  if c.isAlphanum then c.toLower else ' '

/-- Source `preprocess`: `"".join(c.lower() if c.isalnum() else " " for c in text)`. -/
def preprocess (text : Str) : Str := text.map pyCharMap

/-- One pass of `re.sub(r"(?<!\n)\n(?!\n)", " ", s)`: a newline whose original
neighbours are both not newlines is replaced by a space.  `prev` is the
preceding character of the original string. -/
def subSingleNLAux (prev : Option Char) : Str → Str
  | [] => []
  | c :: rest =>
    (if c = '\n' ∧ prev ≠ some '\n' ∧ rest.head? ≠ some '\n' then ' ' else c)
      :: subSingleNLAux (some c) rest

/-- Replace each isolated newline (no newline neighbour) by a space, as
`re.sub(r"(?<!\n)\n(?!\n)", " ", s)` does. -/
def subSingleNL (s : Str) : Str := subSingleNLAux none s

/-- One pass of `re.sub(" +", " ", s)`: a space whose predecessor in the
original string is also a space is dropped, so each run of spaces collapses to
a single space.  `prevSpace` records whether the preceding original character
was a space. -/
def collapseSpacesAux (prevSpace : Bool) : Str → Str
  | [] => []
  | c :: rest =>
    if c = ' ' ∧ prevSpace then collapseSpacesAux true rest
    else c :: collapseSpacesAux (c = ' ') rest

/-- Source `reformat_text`: drop `-\n` hyphenation artifacts, replace isolated
newlines by spaces, and collapse runs of spaces. -/
def reformat_text (doc_content : Str) : Str :=
  collapseSpacesAux false (subSingleNL (pyReplace ['-', '\n'] [] doc_content))

/-!
Character-level facts about `pyCharMap` (C10).
-/

theorem char_isUpper_toNat {c : Char} (h : c.isUpper = true) :
    65 ≤ c.toNat ∧ c.toNat ≤ 90 := by
  simp [Char.isUpper, UInt32.le_def, BitVec.le_def] at h
  exact ⟨h.1, h.2⟩

theorem char_isLower_toNat {c : Char} (h : c.isLower = true) :
    97 ≤ c.toNat ∧ c.toNat ≤ 122 := by
  simp [Char.isLower, UInt32.le_def, BitVec.le_def] at h
  exact ⟨h.1, h.2⟩

theorem char_isDigit_toNat {c : Char} (h : c.isDigit = true) :
    48 ≤ c.toNat ∧ c.toNat ≤ 57 := by
  simp [Char.isDigit, UInt32.le_def, BitVec.le_def] at h
  exact ⟨h.1, h.2⟩

theorem isLower_of_toNat {c : Char} (h1 : 97 ≤ c.toNat) (h2 : c.toNat ≤ 122) :
    c.isLower = true := by
  simp [Char.isLower, UInt32.le_def, BitVec.le_def]
  exact ⟨h1, h2⟩

theorem toLower_eq_self {c : Char} (h : ¬ (65 ≤ c.toNat ∧ c.toNat ≤ 90)) :
    c.toLower = c := by
  simp [Char.toLower]
  omega

theorem toNat_ofNat_shift (n : Nat) (h1 : 65 ≤ n) (h2 : n ≤ 90) :
    (Char.ofNat (n + 32)).toNat = n + 32 := by
  interval_cases n <;> decide

theorem toLower_of_upper {c : Char} (h : c.isUpper = true) :
    c.toLower = Char.ofNat (c.toNat + 32) := by
  have hb := char_isUpper_toNat h
  simp [Char.toLower]
  omega

theorem pyCharMap_fixed (c : Char) : pyCharMap (pyCharMap c) = pyCharMap c := by
  by_cases h : c.isAlphanum = true
  · have hcases : c.isUpper = true ∨ c.isLower = true ∨ c.isDigit = true := by
      simp [Char.isAlphanum, Char.isAlpha] at h
      tauto
    rcases hcases with hu | hl | hd
    · -- upper-case letter: maps to the corresponding lower-case letter
      have hb := char_isUpper_toNat hu
      have hlow : c.toLower.toNat = c.toNat + 32 := by
        rw [toLower_of_upper hu]
        exact toNat_ofNat_shift c.toNat hb.1 hb.2
      have hlower : c.toLower.isLower = true := by
        apply isLower_of_toNat <;> omega
      have halnum : c.toLower.isAlphanum = true := by
        simp [Char.isAlphanum, Char.isAlpha, hlower]
      have hfix : c.toLower.toLower = c.toLower := by
        apply toLower_eq_self
        omega
      simp [pyCharMap, h, halnum, hfix]
    · have hb := char_isLower_toNat hl
      have hfix : c.toLower = c := by
        apply toLower_eq_self
        omega
      simp [pyCharMap, h, hfix]
    · have hb := char_isDigit_toNat hd
      have hfix : c.toLower = c := by
        apply toLower_eq_self
        omega
      simp [pyCharMap, h, hfix]
  · have hsp : pyCharMap c = ' ' := by simp [pyCharMap, h]
    rw [hsp]
    decide

/-- C10: text normalization `preprocess` is idempotent and length-preserving:
each character is mapped independently to exactly one character (lower-cased if
alphanumeric, a single space otherwise) and every output character is a fixed
point of that mapping. -/
theorem preprocess_idempotent_length_preserving (s : Str) :
    preprocess (preprocess s) = preprocess s ∧ (preprocess s).length = s.length := by
  constructor
  · simp only [preprocess, List.map_map]
    exact List.map_congr_left (fun c _ => pyCharMap_fixed c)
  · simp [preprocess]

/-!
Reformatting invariants (C9).
-/

/-- No occurrence of the two-character pattern `b₁ b₂` as adjacent characters. -/
def NoAdjPair (b₁ b₂ : Char) (s : Str) : Prop :=
  List.Chain' (fun a b => ¬ (a = b₁ ∧ b = b₂)) s

/-- Every newline in the string has a newline neighbour, where `prev` is the
character preceding the string (if any). -/
def NoIsolatedNL (prev : Option Char) : Str → Prop
  | [] => True
  | c :: rest =>
    (c = '\n' → prev = some '\n' ∨ rest.head? = some '\n') ∧ NoIsolatedNL (some c) rest

theorem hyphenNL_isPrefix {c : Char} {rest : Str}
    (h : List.isPrefixOf ['-', '\n'] (c :: rest) = true) :
    c = '-' ∧ rest.head? = some '\n' := by
  rcases rest with _ | ⟨d, tail⟩
  · simp [List.isPrefixOf] at h
  · simp [List.isPrefixOf] at h
    exact ⟨h.1.symm, by simp [← h.2]⟩

theorem pyReplace_hyphenNL_id {s : Str} (h : NoAdjPair '-' '\n' s) :
    pyReplace ['-', '\n'] [] s = s := by
  induction s using pyReplace.induct ['-', '\n'] [] with
  | case1 => simp [pyReplace]
  | case2 c rest hpre ih =>
    exfalso
    obtain ⟨hc, hd⟩ := hyphenNL_isPrefix hpre.2
    rcases rest with _ | ⟨d, tail⟩
    · simp at hd
    · simp at hd
      rw [NoAdjPair, List.chain'_cons] at h
      exact h.1 ⟨hc, hd⟩
  | case3 c rest hpre ih =>
    rw [pyReplace, dif_neg hpre]
    rw [ih (List.Chain'.tail h)]

theorem subSingleNLAux_head_nl {p : Option Char} {s : Str}
    (h : (subSingleNLAux p s).head? = some '\n') : s.head? = some '\n' := by
  rcases s with _ | ⟨c, rest⟩
  · simp [subSingleNLAux] at h
  · simp only [subSingleNLAux, List.head?_cons] at h
    split at h
    · simp at h
    · simpa using h

theorem subSingleNLAux_head_nl_of {p : Option Char} {c : Char} {rest : Str}
    (hc : c = '\n') (hside : p = some '\n' ∨ rest.head? = some '\n') :
    (subSingleNLAux p (c :: rest)).head? = some '\n' := by
  simp only [subSingleNLAux, List.head?_cons]
  have hcond : ¬ (c = '\n' ∧ p ≠ some '\n' ∧ rest.head? ≠ some '\n') := by
    rcases hside with h1 | h1 <;> simp [hc, h1]
  rw [if_neg hcond, hc]

theorem noAdjPair_subSingleNLAux {s : Str} (h : NoAdjPair '-' '\n' s) :
    ∀ p, NoAdjPair '-' '\n' (subSingleNLAux p s) := by
  induction s with
  | nil => intro p; simp [subSingleNLAux, NoAdjPair]
  | cons c rest ih =>
    intro p
    rw [subSingleNLAux, NoAdjPair, List.chain'_cons']
    constructor
    · intro y hy hcon
      have hyn : y = '\n' := hcon.2
      have hhd : (subSingleNLAux (some c) rest).head? = some '\n' := by
        rcases hout : (subSingleNLAux (some c) rest).head? with _ | d
        · simp [hout] at hy
        · simp [hout] at hy
          simp [hy, hyn]
      have hrest : rest.head? = some '\n' := subSingleNLAux_head_nl hhd
      have hch : (if c = '\n' ∧ p ≠ some '\n' ∧ rest.head? ≠ some '\n' then ' ' else c) = '-' :=
        hcon.1
      have hcc : c = '-' := by
        by_cases hcond : c = '\n' ∧ p ≠ some '\n' ∧ rest.head? ≠ some '\n'
        · rw [if_pos hcond] at hch; exact absurd hch (by decide)
        · rwa [if_neg hcond] at hch
      rcases rest with _ | ⟨d, tail⟩
      · simp at hrest
      · simp at hrest
        rw [NoAdjPair, List.chain'_cons] at h
        exact h.1 ⟨hcc, hrest⟩
    · exact ih (List.Chain'.tail h) (some c)

theorem collapseSpacesAux_head_false (s : Str) :
    (collapseSpacesAux false s).head? = s.head? := by
  rcases s with _ | ⟨c, rest⟩
  · simp [collapseSpacesAux]
  · rw [collapseSpacesAux]
    simp

theorem collapseSpacesAux_head_true (s : Str) :
    (collapseSpacesAux true s).head? ≠ some ' ' := by
  induction s with
  | nil => simp [collapseSpacesAux]
  | cons c rest ih =>
    rw [collapseSpacesAux]
    by_cases hc : c = ' '
    · rw [if_pos (by simp [hc])]
      exact ih
    · rw [if_neg (by simp [hc])]
      simpa using hc

theorem noAdjPair_collapseSpacesAux {s : Str} (h : NoAdjPair '-' '\n' s) :
    ∀ b, NoAdjPair '-' '\n' (collapseSpacesAux b s) := by
  induction s with
  | nil => intro b; simp [collapseSpacesAux, NoAdjPair]
  | cons c rest ih =>
    intro b
    rw [collapseSpacesAux]
    by_cases hcond : c = ' ' ∧ b = true
    · rw [if_pos (by simp [hcond.1, hcond.2])]
      exact ih (List.Chain'.tail h) true
    · rw [if_neg (by intro hx; exact hcond ⟨hx.1, by simp [hx.2]⟩)]
      rw [NoAdjPair, List.chain'_cons']
      constructor
      · intro y hy hcon
        have hcc : c = '-' := hcon.1
        have hdec : decide (c = ' ') = false := by simp [hcc]
        have hhd : (collapseSpacesAux (decide (c = ' ')) rest).head? = some y := hy
        rw [hdec, collapseSpacesAux_head_false] at hhd
        rcases rest with _ | ⟨d, tail⟩
        · simp at hhd
        · simp at hhd
          rw [NoAdjPair, List.chain'_cons] at h
          exact h.1 ⟨hcc, by rw [hhd]; exact hcon.2⟩
      · exact ih (List.Chain'.tail h) _

theorem noDoubleSpace_collapseSpacesAux (s : Str) :
    ∀ b, NoAdjPair ' ' ' ' (collapseSpacesAux b s) := by
  induction s with
  | nil => intro b; simp [collapseSpacesAux, NoAdjPair]
  | cons c rest ih =>
    intro b
    rw [collapseSpacesAux]
    by_cases hcond : c = ' ' ∧ b = true
    · rw [if_pos (by simp [hcond.1, hcond.2])]
      exact ih true
    · rw [if_neg (by intro hx; exact hcond ⟨hx.1, by simp [hx.2]⟩)]
      rw [NoAdjPair, List.chain'_cons']
      refine ⟨?_, ih _⟩
      intro y hy hcon
      have hcc : c = ' ' := hcon.1
      have hdec : decide (c = ' ') = true := by simp [hcc]
      have hhd : (collapseSpacesAux (decide (c = ' ')) rest).head? = some y := hy
      rw [hdec] at hhd
      exact collapseSpacesAux_head_true rest (by rw [hhd, hcon.2])

theorem noIsolatedNL_subSingleNLAux (s : Str) :
    ∀ p q, (p = some '\n' → s.head? = some '\n' → q = some '\n') →
      NoIsolatedNL q (subSingleNLAux p s) := by
  induction s with
  | nil => intro p q hpq; simp [subSingleNLAux, NoIsolatedNL]
  | cons c rest ih =>
    intro p q hpq
    rw [subSingleNLAux, NoIsolatedNL]
    constructor
    · intro hc'
      by_cases hcond : c = '\n' ∧ p ≠ some '\n' ∧ rest.head? ≠ some '\n'
      · rw [if_pos hcond] at hc'
        exact absurd hc' (by decide)
      · rw [if_neg hcond] at hc'
        push_neg at hcond
        rcases em (p = some '\n') with hp | hp
        · left; exact hpq hp (by simp [hc'])
        · right
          have hrest : rest.head? = some '\n' := hcond hc' hp
          rcases rest with _ | ⟨d, tail⟩
          · simp at hrest
          · simp at hrest
            exact subSingleNLAux_head_nl_of hrest (by left; simp [hc'])
    · apply ih (some c)
      intro hcnl hrhd
      have hcn : c = '\n' := by simpa using hcnl
      have hcond : ¬ (c = '\n' ∧ p ≠ some '\n' ∧ rest.head? ≠ some '\n') := by
        simp [hcn, hrhd]
      rw [if_neg hcond, hcn]

theorem noIsolatedNL_swap_prev {s : Str} {p : Option Char}
    (h : NoIsolatedNL p s) (hp : p ≠ some '\n') (q : Option Char) :
    NoIsolatedNL q s := by
  rcases s with _ | ⟨c, rest⟩
  · simp [NoIsolatedNL]
  · rw [NoIsolatedNL] at h ⊢
    refine ⟨?_, h.2⟩
    intro hc
    rcases h.1 hc with h1 | h1
    · exact absurd h1 hp
    · right; exact h1

theorem noIsolatedNL_collapseSpacesAux {s : Str} :
    ∀ b q, NoIsolatedNL q s → NoIsolatedNL q (collapseSpacesAux b s) := by
  induction s with
  | nil => intro b q h; simp [collapseSpacesAux, NoIsolatedNL]
  | cons c rest ih =>
    intro b q h
    rw [NoIsolatedNL] at h
    rw [collapseSpacesAux]
    by_cases hcond : c = ' ' ∧ b = true
    · rw [if_pos (by simp [hcond.1, hcond.2])]
      have hrec := ih true (some ' ') (by
        have := h.2
        rw [hcond.1] at this
        exact this)
      exact noIsolatedNL_swap_prev hrec (by simp) q
    · rw [if_neg (by intro hx; exact hcond ⟨hx.1, by simp [hx.2]⟩)]
      rw [NoIsolatedNL]
      constructor
      · intro hc
        rcases h.1 hc with h1 | h1
        · left; exact h1
        · right
          have hdec : decide (c = ' ') = false := by simp [hc]
          rw [hdec, collapseSpacesAux_head_false]
          exact h1
      · exact ih _ (some c) h.2

theorem subSingleNLAux_id {s : Str} :
    ∀ p, NoIsolatedNL p s → subSingleNLAux p s = s := by
  induction s with
  | nil => intro p h; simp [subSingleNLAux]
  | cons c rest ih =>
    intro p h
    rw [NoIsolatedNL] at h
    rw [subSingleNLAux]
    have hcond : ¬ (c = '\n' ∧ p ≠ some '\n' ∧ rest.head? ≠ some '\n') := by
      intro hx
      rcases h.1 hx.1 with h1 | h1
      · exact hx.2.1 h1
      · exact hx.2.2 h1
    rw [if_neg hcond]
    rw [ih (some c) h.2]

theorem collapseSpacesAux_id {s : Str} :
    ∀ b, NoAdjPair ' ' ' ' s → (b = true → s.head? ≠ some ' ') →
      collapseSpacesAux b s = s := by
  induction s with
  | nil => intro b h hb; simp [collapseSpacesAux]
  | cons c rest ih =>
    intro b h hb
    rw [collapseSpacesAux]
    have hcond : ¬ (c = ' ' ∧ b = true) := by
      intro hx
      exact hb hx.2 (by simp [hx.1])
    rw [if_neg (by intro hx; exact hcond ⟨hx.1, by simp [hx.2]⟩)]
    congr 1
    apply ih _ (List.Chain'.tail h)
    intro hflag hhd
    have hc : c = ' ' := by simpa using hflag
    rcases rest with _ | ⟨d, tail⟩
    · simp at hhd
    · simp at hhd
      rw [NoAdjPair, List.chain'_cons] at h
      exact h.1 ⟨hc, hhd⟩

/-- C9 counterexample: `reformat_text` is not idempotent.  On the input
`"--\n\n\n"` the hyphenation pass deletes the first `-\n` pair and thereby
creates a new `-\n` adjacency that survives the first pass (its newline is part
of a preserved newline run) but is consumed by a second pass. -/
theorem reformat_text_not_idempotent :
    reformat_text (reformat_text ['-', '-', '\n', '\n', '\n']) ≠
      reformat_text ['-', '-', '\n', '\n', '\n'] := by
  have h1 : reformat_text ['-', '-', '\n', '\n', '\n'] = ['-', '\n', '\n'] := by
    simp [reformat_text, pyReplace, List.isPrefixOf, subSingleNL, subSingleNLAux,
      collapseSpacesAux]
  have h2 : reformat_text ['-', '\n', '\n'] = [' '] := by
    simp [reformat_text, pyReplace, List.isPrefixOf, subSingleNL, subSingleNLAux,
      collapseSpacesAux]
  rw [h1, h2]
  simp

/-- C9 (amended): `reformat_text` is idempotent on every input that contains no
`-\n` substring (the hyphenation-removal step is then the identity and cannot
create new `-\n` adjacencies); the counterexample input `"--\n\n\n"` contains a
`-\n` substring. -/
theorem reformat_text_idempotent_of_no_hyphen_newline (x : Str)
    (h : NoAdjPair '-' '\n' x) :
    reformat_text (reformat_text x) = reformat_text x := by
  have hA : pyReplace ['-', '\n'] [] x = x := pyReplace_hyphenNL_id h
  have hy : reformat_text x = collapseSpacesAux false (subSingleNL x) := by
    rw [reformat_text, hA]
  have hadj : NoAdjPair '-' '\n' (collapseSpacesAux false (subSingleNL x)) :=
    noAdjPair_collapseSpacesAux (noAdjPair_subSingleNLAux h none) false
  have hiso : NoIsolatedNL none (collapseSpacesAux false (subSingleNL x)) :=
    noIsolatedNL_collapseSpacesAux false none
      (noIsolatedNL_subSingleNLAux x none none
        (by intro hp hhd; exact absurd hp (by simp)))
  have hsp : NoAdjPair ' ' ' ' (collapseSpacesAux false (subSingleNL x)) :=
    noDoubleSpace_collapseSpacesAux _ false
  rw [hy, reformat_text, pyReplace_hyphenNL_id hadj, subSingleNL,
    subSingleNLAux_id none hiso, collapseSpacesAux_id false hsp (by simp)]

/-- Witness for the amended C9 theorem at the concrete input `"a\nb"`. -/
theorem reformat_text_idempotent_witness :
    reformat_text (reformat_text ['a', '\n', 'b']) = reformat_text ['a', '\n', 'b'] :=
  reformat_text_idempotent_of_no_hyphen_newline ['a', '\n', 'b'] (by
    rw [NoAdjPair]
    simp [List.chain'_cons])

/-!
`DocumentPreprocessor` (source: `preprocess_arxiv_doc`, C8).
-/

/-- The literal section marker `"References"` used by `preprocess_arxiv_doc`. -/
def refsMarker : Str := ['R', 'e', 'f', 'e', 'r', 'e', 'n', 'c', 'e', 's']

/-- Source `preprocess_arxiv_doc`: reformat the text, truncate at the
`"References"` marker exactly when splitting on it yields two parts, then (only
when a token encoder is supplied) truncate to `int(12000*3.2) = 38400`
characters if the encoded length exceeds 12000 tokens. -/
def preprocess_arxiv_doc (doc_content : Str)
    (token_encoder : Option (Str → Nat) := none) : Str :=
  let c1 := reformat_text doc_content
  let c2 :=
    if (pySplit refsMarker c1).length = 2 then (pySplit refsMarker c1).headD []
    else c1
  match token_encoder with
  | some enc => if 12000 < enc c2 then c2.take 38400 else c2
  | none => c2

/-- C8: document preprocessing truncates to the portion before the
`"References"` marker exactly when the marker occurs exactly once in the
reformatted text (splitting on it yields exactly two parts); with zero or two
or more occurrences the reformatted text is returned unchanged. -/
theorem preprocess_arxiv_doc_truncation (doc : Str) :
    (countOcc refsMarker (reformat_text doc) = 1 →
      ∃ a b : Str, reformat_text doc = a ++ refsMarker ++ b ∧
        preprocess_arxiv_doc doc none = a) ∧
    (countOcc refsMarker (reformat_text doc) ≠ 1 →
      preprocess_arxiv_doc doc none = reformat_text doc) := by
  constructor
  · intro h1
    have hlen : (pySplit refsMarker (reformat_text doc)).length = 2 := by
      rw [pySplit_length, h1]
    rcases hsp : pySplit refsMarker (reformat_text doc) with _ | ⟨a, rest⟩
    · exact absurd hsp (pySplit_ne_nil _ _)
    · rcases rest with _ | ⟨b, rest2⟩
      · rw [hsp] at hlen
        simp at hlen
      · rcases rest2 with _ | ⟨x, xs⟩
        · refine ⟨a, b, ?_, ?_⟩
          · have hj := pySplit_join refsMarker (reformat_text doc)
            rw [hsp, joinSep_cons_cons] at hj
            rw [← hj]
            rfl
          · rw [preprocess_arxiv_doc]
            simp [hsp, hlen]
        · rw [hsp] at hlen
          simp at hlen
  · intro h1
    have hlen : (pySplit refsMarker (reformat_text doc)).length ≠ 2 := by
      rw [pySplit_length]
      omega
    rw [preprocess_arxiv_doc]
    simp [hlen]

/-- Witness for C8 at the concrete input `"AReferencesB"`, whose reformatted
form contains the marker exactly once. -/
theorem preprocess_arxiv_doc_truncation_witness :
    ∃ a b : Str,
      reformat_text ('A' :: refsMarker ++ ['B']) = a ++ refsMarker ++ b ∧
        preprocess_arxiv_doc ('A' :: refsMarker ++ ['B']) none = a :=
  (preprocess_arxiv_doc_truncation ('A' :: refsMarker ++ ['B'])).1 (by
    simp [reformat_text, refsMarker, pyReplace, subSingleNL, subSingleNLAux,
      collapseSpacesAux, countOcc, List.isPrefixOf])

/-!
Identifier derivation (C7): the `arxiv_code` computation of
`process_arxiv_data` versus the spec's trailing-version-suffix rule.
-/

/-- Identifier derivation used by `process_arxiv_data`:
`raw.split("/")[-1].split("v")[0]`. -/
def arxivCodeOf (raw : Str) : Str :=
  (pySplit ['v'] ((pySplit ['/'] raw).getLastD [])).headD []

/-- Following the spec's words: discard a trailing version suffix — a literal
`v` followed by (one or more) digits — from a segment, and nothing else. -/
def specStripVersion (seg : Str) : Str :=
  if seg.reverse.takeWhile Char.isDigit = [] then seg
  else
    match seg.reverse.drop (seg.reverse.takeWhile Char.isDigit).length with
    | 'v' :: base => base.reverse
    | _ => seg

/-- Following the spec's words: the identifier is the last path-separator
segment of the raw identifier with any trailing version suffix removed. -/
def specArxivCodeOf (raw : Str) : Str :=
  specStripVersion ((pySplit ['/'] raw).getLastD [])

theorem takeWhile_all_append_cons (p : Char → Bool) (a : Str) (x : Char) (b : Str)
    (ha : ∀ c ∈ a, p c = true) (hx : p x = false) :
    (a ++ x :: b).takeWhile p = a := by
  induction a with
  | nil => simp [List.takeWhile_cons, hx]
  | cons c cs ih =>
    have hc := ha c (by simp)
    simp [List.takeWhile_cons, hc, ih (fun d hd => ha d (by simp [hd]))]

theorem pySplit_single_head (c : Char) (s : Str) :
    (pySplit [c] s).headD [] = s.takeWhile (fun d => d ≠ c) := by
  induction s with
  | nil => simp [pySplit]
  | cons d rest ih =>
    by_cases hd : d = c
    · rw [pySplit, dif_pos (by simp [List.isPrefixOf, hd])]
      simp [List.takeWhile_cons, hd]
    · rw [pySplit, dif_neg (by
        simp [List.isPrefixOf]
        intro hcd
        exact hd hcd.symm)]
      rcases hsp : pySplit [c] rest with _ | ⟨chunk, more⟩
      · exact absurd hsp (pySplit_ne_nil _ _)
      · rw [hsp] at ih
        simp only [consHead, List.headD_cons, List.takeWhile_cons] at *
        simp [hd, ih]

/-- C7 counterexample: on the raw identifier `"xv1y"` (its last segment has no
trailing version suffix, since `"1y"` is not all digits) the code derives
`"x"` — it cuts at the first `v` — while the spec's rule keeps `"xv1y"`
unchanged. -/
theorem arxiv_code_strips_from_first_v :
    arxivCodeOf ['x', 'v', '1', 'y'] = ['x'] ∧
    specArxivCodeOf ['x', 'v', '1', 'y'] = ['x', 'v', '1', 'y'] ∧
    arxivCodeOf ['x', 'v', '1', 'y'] ≠ specArxivCodeOf ['x', 'v', '1', 'y'] := by
  refine ⟨?_, ?_, ?_⟩
  · simp [arxivCodeOf, pySplit, List.isPrefixOf, consHead]
  · simp [specArxivCodeOf, specStripVersion, pySplit, List.isPrefixOf, consHead]
  · simp [arxivCodeOf, specArxivCodeOf, specStripVersion, pySplit,
      List.isPrefixOf, consHead]

/-- The spec's version-stripping rule leaves a segment without any `v`
unchanged. -/
theorem specStripVersion_no_v {seg : Str} (hv : 'v' ∉ seg) :
    specStripVersion seg = seg := by
  unfold specStripVersion
  split
  · rfl
  · split
    · rename_i heq
      exfalso
      apply hv
      have hmem : 'v' ∈ seg.reverse.drop (seg.reverse.takeWhile Char.isDigit).length := by
        rw [heq]
        simp
      simpa using List.mem_of_mem_drop hmem
    · rfl

/-- The spec's version-stripping rule removes a genuine trailing version
suffix. -/
theorem specStripVersion_strip (a b : Str) (hbne : b ≠ [])
    (hbd : ∀ c ∈ b, c.isDigit = true) :
    specStripVersion (a ++ 'v' :: b) = a := by
  have hrev : (a ++ 'v' :: b).reverse = b.reverse ++ 'v' :: a.reverse := by
    simp
  have hds : (a ++ 'v' :: b).reverse.takeWhile Char.isDigit = b.reverse := by
    rw [hrev]
    exact takeWhile_all_append_cons _ _ 'v' _
      (fun c hc => hbd c (by simpa using hc)) (by decide)
  unfold specStripVersion
  rw [hds, if_neg (by simpa using hbne), hrev, List.drop_left]
  simp

/-- C7 (amended): the code keeps the part of the last `/`-separated segment
before its first `v` (everything from the first `v` onward is discarded,
digits or not).  This agrees with the spec's trailing-version rule exactly on
identifiers whose last segment either contains no `v` at all, or whose first
`v` is followed by a nonempty all-digit string reaching the end of the
segment. -/
theorem arxiv_code_agrees_with_version_stripping (raw : Str)
    (h : 'v' ∉ (pySplit ['/'] raw).getLastD [] ∨
      ∃ a b : Str, (pySplit ['/'] raw).getLastD [] = a ++ 'v' :: b ∧
        'v' ∉ a ∧ b ≠ [] ∧ ∀ c ∈ b, c.isDigit = true) :
    arxivCodeOf raw = specArxivCodeOf raw := by
  rw [arxivCodeOf, specArxivCodeOf, pySplit_single_head]
  rcases h with hv | ⟨a, b, hseg, hva, hbne, hbd⟩
  · rw [specStripVersion_no_v hv]
    apply List.takeWhile_eq_self_iff.mpr
    intro d hd
    simp
    intro hdc
    exact hv (by rw [← hdc]; exact hd)
  · rw [hseg, specStripVersion_strip a b hbne hbd]
    apply takeWhile_all_append_cons _ a 'v' b ?_ (by simp)
    intro d hd
    simp
    intro hdc
    exact hva (by rw [← hdc]; exact hd)

/-!
`CatalogResolver` (source: `search_arxiv_doc`, `get_arxiv_info`, C1).

The candidate lists come from the external catalog (ArxivLoader or
`arxiv.Search`) and the similarity scores are floats computed by
`tfidf_similarity`; the resolver's ranking and threshold logic is modelled
over an arbitrary score function with exact rational values.
-/

/-- A catalog candidate; the resolver's ranking and acceptance logic inspects
only the title (the accepted candidate is returned whole). -/
structure Candidate where
  title : Str
  deriving DecidableEq

/-- Python's stable `sorted(docs, key=lambda x: sim(query, x.title),
reverse=True)`. -/
def rankBySimilarity (sim : Str → Str → ℚ) (query : Str)
    (docs : List Candidate) : List Candidate :=
  List.insertionSort (fun a b => sim query b.title ≤ sim query a.title) docs

/-- Source `search_arxiv_doc`: with no candidates return `None`; otherwise rank
by similarity descending and reject the top candidate only when
`title_sim < 0.7` (so a score of exactly `0.7` is accepted). -/
def search_arxiv_doc (sim : Str → Str → ℚ) (paper_name : Str)
    (docs : List Candidate) : Option Candidate :=
  if docs.isEmpty then none
  else
    match rankBySimilarity sim paper_name docs with
    | [] => none
    | top :: _ => if sim paper_name top.title < 7/10 then none else some top

/-- Source `get_arxiv_info`: with no results return `None`; otherwise rank by
similarity descending and accept the top candidate only when
`title_sim > 0.7`. -/
def get_arxiv_info (sim : Str → Str → ℚ) (title : Str)
    (res : List Candidate) : Option Candidate :=
  if res.isEmpty then none
  else
    match rankBySimilarity sim title res with
    | [] => none
    | top :: _ => if 7/10 < sim title top.title then some top else none

/-- C1 counterexample: when the top-ranked candidate scores exactly `0.7`,
`search_arxiv_doc` accepts it (its test is `title_sim < 0.7`), although the
claim requires rejection at a score that does not strictly exceed `0.7`. -/
theorem search_arxiv_doc_accepts_score_at_threshold :
    search_arxiv_doc (fun x y => 7/10) ['q'] [Candidate.mk ['t']] =
      some (Candidate.mk ['t']) ∧
    ¬ ((7 : ℚ)/10 > 7/10) := by
  constructor
  · simp [search_arxiv_doc, rankBySimilarity, List.insertionSort, List.orderedInsert]
  · simp

/-- C1 (amended): for a nonempty candidate list, both entry points return the
top-ranked (maximal-similarity) candidate or nothing: `search_arxiv_doc`
accepts exactly when the top score is at least `0.7` (a score of exactly
`0.70` is accepted), while `get_arxiv_info` accepts exactly when the top score
strictly exceeds `0.7`; an empty candidate list yields `None` from both. -/
theorem resolver_acceptance_threshold (sim : Str → Str → ℚ) (q : Str)
    (docs : List Candidate) (hne : docs ≠ []) :
    ∃ top ∈ docs,
      (∀ d ∈ docs, sim q d.title ≤ sim q top.title) ∧
      search_arxiv_doc sim q docs =
        (if 7/10 ≤ sim q top.title then some top else none) ∧
      get_arxiv_info sim q docs =
        (if 7/10 < sim q top.title then some top else none) := by
  haveI hTot : IsTotal Candidate (fun a b => sim q b.title ≤ sim q a.title) :=
    ⟨fun a b => le_total _ _⟩
  haveI hTrans : IsTrans Candidate (fun a b => sim q b.title ≤ sim q a.title) :=
    ⟨fun a b c h1 h2 => le_trans h2 h1⟩
  have hperm := List.perm_insertionSort
    (fun a b => sim q b.title ≤ sim q a.title) docs
  have hsorted := List.sorted_insertionSort
    (fun a b => sim q b.title ≤ sim q a.title) docs
  rcases hsort : rankBySimilarity sim q docs with _ | ⟨top, rest⟩
  · exfalso
    rw [rankBySimilarity] at hsort
    rw [hsort] at hperm
    exact hne (List.Perm.nil_eq hperm).symm
  · rw [rankBySimilarity] at hsort
    rw [hsort] at hperm hsorted
    refine ⟨top, ?_, ?_, ?_, ?_⟩
    · exact hperm.mem_iff.mp (by simp)
    · intro d hd
      have hd2 : d ∈ top :: rest := hperm.mem_iff.mpr hd
      rcases List.mem_cons.mp hd2 with rfl | hd3
      · exact le_refl _
      · exact (List.pairwise_cons.mp hsorted).1 d hd3
    · rw [search_arxiv_doc, if_neg (by simp [hne]), rankBySimilarity, hsort]
      by_cases hlt : sim q top.title < 7/10
      · simp [hlt, not_le.mpr hlt]
      · simp [hlt, not_lt.mp hlt]
    · rw [get_arxiv_info, if_neg (by simp [hne]), rankBySimilarity, hsort]

/-- Similarity function used by the C1 witness. -/
def simW : Str → Str → ℚ := fun x y => if y = ['a'] then 1 else 0

/-- Witness for the amended C1 theorem on a concrete two-candidate list. -/
theorem resolver_acceptance_threshold_witness :
    ∃ top ∈ [Candidate.mk ['b'], Candidate.mk ['a']],
      (∀ d ∈ [Candidate.mk ['b'], Candidate.mk ['a']],
        simW ['q'] d.title ≤ simW ['q'] top.title) ∧
      search_arxiv_doc simW ['q'] [Candidate.mk ['b'], Candidate.mk ['a']] =
        (if 7/10 ≤ simW ['q'] top.title then some top else none) ∧
      get_arxiv_info simW ['q'] [Candidate.mk ['b'], Candidate.mk ['a']] =
        (if 7/10 < simW ['q'] top.title then some top else none) :=
  resolver_acceptance_threshold simW ['q'] [Candidate.mk ['b'], Candidate.mk ['a']]
    (by simp)

/-!
`SimilarityScorer` and `BatchScorer` (source: the module-level `vectorizer`,
`tfidf_similarity`, `compute_optimized_similarity`; C2, C3, C4).
-/

/-- All character `n`-grams of a document, in scan order. -/
def windowsN (n : Nat) (d : Str) : List Str :=
  (List.range (d.length + 1 - n)).map (fun i => (d.drop i).take n)

/-- scikit-learn's char analyzer for `ngram_range=(2, 3)`: normalize
whitespace runs (the analyzer's `\s\s+ → " "` substitution; on preprocessed
text all whitespace is already single spaces, so this coincides with
collapsing space runs), then list all 2-grams followed by all 3-grams.  The
vectorizer's own lowercasing is the identity on preprocessed text. -/
def analyze (doc : Str) : List Str :=
  windowsN 2 (collapseSpacesAux false doc) ++ windowsN 3 (collapseSpacesAux false doc)

/-- Vocabulary fitted on a list of documents: the distinct n-grams occurring
in them, in first-occurrence order (scikit-learn stores the vocabulary
sorted; feature order does not affect cosine similarity). -/
def fitVocab (docs : List Str) : List Str := (docs.flatMap analyze).dedup

/-- Term-frequency vector of a document over a fitted vocabulary (`use_idf` is
off, so entries are raw n-gram counts; the vectorizer's L2 row normalization
cancels in the cosine). -/
def tfVec (vocab : List Str) (doc : Str) : List ℚ :=
  vocab.map (fun g => (((analyze doc).count g : ℕ) : ℚ))

/-- Dot product of two count vectors. -/
def dotQ (u v : List ℚ) : ℚ := (List.zipWith (fun a b => a * b) u v).sum

/-- Cosine similarity of two count vectors;
`sklearn.metrics.pairwise.cosine_similarity` leaves an all-zero row at zero,
so the similarity degenerates to 0 when either vector is zero. -/
noncomputable def cosineSim (u v : List ℚ) : ℝ :=
  if dotQ u u = 0 ∨ dotQ v v = 0 then 0
  else ((dotQ u v : ℚ) : ℝ) /
    (Real.sqrt ((dotQ u u : ℚ) : ℝ) * Real.sqrt ((dotQ v v : ℚ) : ℝ))

/-- Score of a pair of raw titles under a given fitted vocabulary: the
prefitted branch of `tfidf_similarity` (both titles are preprocessed on
entry). -/
noncomputable def tfidfFitted (vocab : List Str) (title1 title2 : Str) : ℝ :=
  cosineSim (tfVec vocab (preprocess title1)) (tfVec vocab (preprocess title2))

/-- Error raised by the vectorizer: scikit-learn's "empty vocabulary"
ValueError from a fit that finds no n-gram feature. -/
inductive VecErr where
  | emptyVocabulary
  deriving DecidableEq

/-- Source `tfidf_similarity`: preprocess both strings; with `fitted=False`,
fit the shared vectorizer on exactly the two inputs (raising when no n-gram
feature exists) and score; with `fitted=True`, reuse the current vocabulary
unchanged.  The returned pair carries the vectorizer state after the call. -/
noncomputable def tfidf_similarity (vocab : List Str) (title1 title2 : Str)
    (fitted : Bool) : Except VecErr (ℝ × List Str) :=
  if fitted then .ok (tfidfFitted vocab title1 title2, vocab)
  else
    if fitVocab [preprocess title1, preprocess title2] = [] then
      .error .emptyVocabulary
    else
      .ok (tfidfFitted (fitVocab [preprocess title1, preprocess title2]) title1 title2,
        fitVocab [preprocess title1, preprocess title2])

/-- A completed future of the worker pool: it stores the result of its own
task, so reading the futures in submission order yields results in submission
order regardless of completion order. -/
structure Future where
  result : ℝ

/-- Source `compute_optimized_similarity`: submit one prefitted
`tfidf_similarity` task per title to the pool and read results in submission
order.  No fit takes place; `vocab` is whatever vocabulary an earlier call
left in the shared vectorizer. -/
noncomputable def compute_optimized_similarity (vocab : List Str)
    (data_title : Str) (titles : List Str) : List ℝ :=
  (titles.map (fun title => Future.mk (tfidfFitted vocab data_title title))).map
    Future.result

/-- Following the spec's words: batch scoring where a single vocabulary is
fitted exactly once, before any scoring is dispatched, on the query together
with all candidates of the invocation. -/
noncomputable def specBatchSimilarity (data_title : Str) (titles : List Str) :
    List ℝ :=
  (titles.map (fun title =>
    Future.mk (tfidfFitted (fitVocab ((data_title :: titles).map preprocess))
      data_title title))).map Future.result

/-- Sequential reference semantics of the batch: run the stateful prefitted
`tfidf_similarity` once per title, threading the vectorizer state through. -/
noncomputable def scoreSequentially (q : Str) :
    List Str → List Str → Except VecErr (List ℝ × List Str)
  | vocab, [] => .ok ([], vocab)
  | vocab, t :: ts =>
    match tfidf_similarity vocab q t true with
    | .error e => .error e
    | .ok (r, vocab2) =>
      match scoreSequentially q vocab2 ts with
      | .error e => .error e
      | .ok (rs, vocab3) => .ok (r :: rs, vocab3)

theorem dotQ_map_self (f : Str → ℚ) (l : List Str) :
    dotQ (l.map f) (l.map f) = (l.map (fun g => f g * f g)).sum := by
  induction l with
  | nil => simp [dotQ]
  | cons g gs ih => simp [dotQ, List.zipWith_cons_cons] at ih ⊢; rw [ih]

theorem dotQ_self_nonneg (u : List ℚ) : 0 ≤ dotQ u u := by
  induction u with
  | nil => simp [dotQ]
  | cons a l ih =>
    have hstep : dotQ (a :: l) (a :: l) = a * a + dotQ l l := by
      simp [dotQ]
    rw [hstep]
    have hsq := mul_self_nonneg a
    linarith

theorem cosineSim_self_one {u : List ℚ} (h : dotQ u u ≠ 0) : cosineSim u u = 1 := by
  rw [cosineSim, if_neg (by simp [h])]
  rw [Real.mul_self_sqrt (by exact_mod_cast dotQ_self_nonneg u)]
  apply div_self
  exact_mod_cast h

theorem fitVocab_pair_self (p : Str) :
    fitVocab [p, p] = (analyze p ++ analyze p).dedup := by
  simp [fitVocab]

/-- C3 counterexample: on the empty string the one-off fit finds no n-gram
feature, so the vectorizer raises (scikit-learn's "empty vocabulary"
ValueError): the call errors instead of returning a 0.0 similarity. -/
theorem tfidf_similarity_errors_on_empty :
    tfidf_similarity [] [] [] false = .error .emptyVocabulary := by
  rw [tfidf_similarity, if_neg (by simp), if_pos (by decide)]

/-- C3 (amended): self-similarity in one-off mode is exactly 1 whenever the
normalized string yields at least one character n-gram; when it yields no
n-gram (e.g. an empty or single-character normalized string) the fit raises
"empty vocabulary" rather than returning 0.  In prefitted mode a featureless
string scores 0 against anything, without error. -/
theorem tfidf_self_similarity (s : Str) :
    (analyze (preprocess s) ≠ [] →
      tfidf_similarity [] s s false =
        .ok (1, fitVocab [preprocess s, preprocess s])) ∧
    (analyze (preprocess s) = [] →
      tfidf_similarity [] s s false = .error .emptyVocabulary) ∧
    (∀ vocab t, analyze (preprocess s) = [] → tfidfFitted vocab s t = 0) := by
  refine ⟨?_, ?_, ?_⟩
  · intro hne
    have hvne : fitVocab [preprocess s, preprocess s] ≠ [] := by
      rw [fitVocab_pair_self]
      simp [hne]
    rw [tfidf_similarity, if_neg (by simp), if_neg hvne]
    have hdot : dotQ (tfVec (fitVocab [preprocess s, preprocess s]) (preprocess s))
        (tfVec (fitVocab [preprocess s, preprocess s]) (preprocess s)) ≠ 0 := by
      rw [tfVec, dotQ_map_self]
      have hpos : 0 < ((fitVocab [preprocess s, preprocess s]).map
          (fun g => (((analyze (preprocess s)).count g : ℕ) : ℚ) *
            (((analyze (preprocess s)).count g : ℕ) : ℚ))).sum := by
        apply List.sum_pos
        · intro x hx
          rcases List.mem_map.mp hx with ⟨g, hg, hgx⟩
          have hgmem : g ∈ analyze (preprocess s) := by
            rw [fitVocab_pair_self] at hg
            rcases List.mem_append.mp (List.mem_dedup.mp hg) with h1 | h1 <;> exact h1
          have hcount : 0 < (analyze (preprocess s)).count g := List.count_pos_iff.mpr hgmem
          rw [← hgx]
          have : (0 : ℚ) < (((analyze (preprocess s)).count g : ℕ) : ℚ) := by
            exact_mod_cast hcount
          positivity
        · simp [hvne]
      exact ne_of_gt hpos
    rw [tfidfFitted, cosineSim_self_one hdot]
  · intro hz
    have hve : fitVocab [preprocess s, preprocess s] = [] := by
      rw [fitVocab_pair_self, hz]
      simp
    rw [tfidf_similarity, if_neg (by simp), if_pos hve]
  · intro vocab t hz
    rw [tfidfFitted, cosineSim, if_pos]
    left
    rw [tfVec, dotQ_map_self]
    apply List.sum_eq_zero
    intro x hx
    rcases List.mem_map.mp hx with ⟨g, hg, hgx⟩
    rw [← hgx, hz]
    simp

/-- Witness for the amended C3 theorem at the concrete input `"ab"`. -/
theorem tfidf_self_similarity_witness :
    analyze (preprocess ['a', 'b']) ≠ [] ∧
    tfidf_similarity [] ['a', 'b'] ['a', 'b'] false =
      .ok (1, fitVocab [preprocess ['a', 'b'], preprocess ['a', 'b']]) :=
  ⟨by decide, (tfidf_self_similarity ['a', 'b']).1 (by decide)⟩

/-- C2 counterexample: `compute_optimized_similarity` performs no fit.  With
the vectorizer state left behind by an earlier one-off fit on `"ab"`, scoring
the query `"cd"` against the single candidate `"cd"` yields `[0]` (the stale
vocabulary shares no n-gram with `"cd"`), whereas a vocabulary fitted on the
query together with the candidates — as the claim requires — would yield
`[1]`. -/
theorem compute_optimized_similarity_stale_vocab :
    compute_optimized_similarity
        (fitVocab [preprocess ['a', 'b'], preprocess ['a', 'b']])
        ['c', 'd'] [['c', 'd']] = [0] ∧
    specBatchSimilarity ['c', 'd'] [['c', 'd']] = [1] ∧
    compute_optimized_similarity
        (fitVocab [preprocess ['a', 'b'], preprocess ['a', 'b']])
        ['c', 'd'] [['c', 'd']] ≠
      specBatchSimilarity ['c', 'd'] [['c', 'd']] := by
  have hstale : tfVec (fitVocab [preprocess ['a', 'b'], preprocess ['a', 'b']])
      (preprocess ['c', 'd']) = [0] := by decide
  have hfresh : tfVec (fitVocab [preprocess ['c', 'd'], preprocess ['c', 'd']])
      (preprocess ['c', 'd']) = [1] := by decide
  have h1 : compute_optimized_similarity
      (fitVocab [preprocess ['a', 'b'], preprocess ['a', 'b']])
      ['c', 'd'] [['c', 'd']] = [0] := by
    rw [compute_optimized_similarity]
    simp only [List.map_cons, List.map_nil]
    rw [tfidfFitted, hstale, cosineSim, if_pos (by left; simp [dotQ])]
  have h2 : specBatchSimilarity ['c', 'd'] [['c', 'd']] = [1] := by
    rw [specBatchSimilarity]
    simp only [List.map_cons, List.map_nil]
    rw [tfidfFitted, hfresh, cosineSim, if_neg (by simp [dotQ])]
    norm_num [dotQ, Real.sqrt_one]
  refine ⟨h1, h2, ?_⟩
  rw [h1, h2]
  simp

/-- C2 (amended): batch scoring runs every pair in prefitted mode under the
vectorizer's pre-existing vocabulary, shared and unchanged across the whole
invocation: threading the stateful `tfidf_similarity` calls sequentially
returns exactly the batch scores and leaves the vocabulary untouched.  No fit
on the query and candidates takes place (see the counterexample). -/
theorem compute_optimized_similarity_no_refit (vocab : List Str) (q : Str)
    (titles : List Str) :
    scoreSequentially q vocab titles =
      .ok (compute_optimized_similarity vocab q titles, vocab) := by
  induction titles generalizing vocab with
  | nil => rw [scoreSequentially, compute_optimized_similarity]; simp
  | cons t ts ih =>
    rw [scoreSequentially]
    have hstep : tfidf_similarity vocab q t true =
        .ok (tfidfFitted vocab q t, vocab) := rfl
    rw [hstep]
    simp only []
    rw [ih vocab]
    simp only []
    rw [compute_optimized_similarity, compute_optimized_similarity]
    simp

/-- C4: the batch scorer returns one score per candidate, in candidate order
(futures are read in submission order, and each future carries its own task's
result): the i-th output equals the prefitted single-pair similarity of the
query with the i-th candidate under the shared vocabulary, which is exactly
what `tfidf_similarity(query, candidate, True)` returns. -/
theorem compute_optimized_similarity_pointwise (vocab : List Str) (q : Str)
    (titles : List Str) :
    (compute_optimized_similarity vocab q titles).length = titles.length ∧
    (∀ i : Nat, (compute_optimized_similarity vocab q titles)[i]? =
      (titles[i]?).map (fun t => tfidfFitted vocab q t)) ∧
    (∀ t, tfidf_similarity vocab q t true = .ok (tfidfFitted vocab q t, vocab)) := by
  refine ⟨by simp [compute_optimized_similarity], ?_, fun t => rfl⟩
  intro i
  rw [compute_optimized_similarity]
  simp only [List.map_map, List.getElem?_map]
  rcases titles[i]? with _ | t
  · rfl
  · rfl

/-- The raw identifier of the spec's concrete example. -/
def exampleRawId : Str :=
  ['h', 't', 't', 'p', ':', '/', '/', 'a', 'r', 'x', 'i', 'v', '.', 'o', 'r',
    'g', '/', 'a', 'b', 's', '/', '2', '3', '0', '1', '.', '0', '0', '0', '0',
    '1', 'v', '2']

/-- Witness for the amended C7 theorem on the spec's example
`"http://arxiv.org/abs/2301.00001v2"`, which the agreement theorem maps to
`"2301.00001"` under both derivations. -/
theorem arxiv_code_agreement_witness :
    arxivCodeOf exampleRawId = specArxivCodeOf exampleRawId ∧
    arxivCodeOf exampleRawId =
      ['2', '3', '0', '1', '.', '0', '0', '0', '0', '1'] := by
  constructor
  · apply arxiv_code_agrees_with_version_stripping
    right
    refine ⟨['2', '3', '0', '1', '.', '0', '0', '0', '0', '1'], ['2'], ?_, ?_, ?_, ?_⟩
    · simp [exampleRawId, pySplit, List.isPrefixOf, consHead]
    · decide
    · decide
    · decide
  · simp [exampleRawId, arxivCodeOf, pySplit, List.isPrefixOf, consHead]

/-!
`RecordNormalizer` (source: `flatten_dict`, `transform_flat_dict`,
`process_arxiv_data`; C5, C6).
-/

/-- A Python/JSON-style value inside an arXiv record. -/
inductive Value where
  | str (s : Str)
  | num (n : Int)
  | arr (elems : List Value)
  | obj (fields : List (String × Value))

/-- A Python dict with string keys, in insertion order (keys unique by
construction). -/
abbrev Dict := List (String × Value)

/-- Whether a value is a mapping. -/
def Value.isObj : Value → Bool
  | .obj _ => true
  | _ => false

/-- Whether a value is a scalar (string or number). -/
def Value.isScalar : Value → Bool
  | .str _ => true
  | .num _ => true
  | _ => false

/-- Python dict lookup `d[k]` (first matching key; keys are unique). -/
def dictLookup : Dict → String → Option Value
  | [], _ => none
  | (k, v) :: rest, key => if k = key then some v else dictLookup rest key

/-- Python dict assignment `d[k] = v`: replace the value in place when the key
exists, otherwise append the new entry. -/
def dictInsert : Dict → String → Value → Dict
  | [], k, v => [(k, v)]
  | (k0, v0) :: rest, k, v =>
    if k0 = k then (k0, v) :: rest else (k0, v0) :: dictInsert rest k v

/-- Python `d.update(kvs)`. -/
def dictUpdate (d : Dict) (kvs : Dict) : Dict :=
  kvs.foldl (fun acc kv => dictInsert acc kv.1 kv.2) d

/-- Removal effect of Python `d.pop(k)`. -/
def dictRemove (d : Dict) (k : String) : Dict :=
  d.filter (fun kv => kv.1 ≠ k)

/-- Source `flatten_dict`, with the `items` accumulator explicit: nested
mappings are flattened recursively under `parent + sep + key`; any non-mapping
value (scalars, but also lists) is stored as is. -/
def flattenInto (acc : Dict) (fields : List (String × Value))
    (parent sep : String) : Dict :=
  match fields with
  | [] => acc
  | (k, v) :: rest =>
    let newKey := if parent = "" then k else parent ++ sep ++ k
    match v with
    | .obj fs =>
      flattenInto (dictUpdate acc (flattenInto [] fs newKey sep)) rest parent sep
    | _ => flattenInto (dictInsert acc newKey v) rest parent sep

/-- Source `flatten_dict(d)` with the default `parent_key=""`, `sep="_"`. -/
def flatten_dict (d : Dict) : Dict := flattenInto [] d "" "_"

/-- Python errors surfaced by `process_arxiv_data`: `KeyError` from a missing
key, and `TypeError`/`AttributeError` from a value of the wrong shape. -/
inductive RecErr where
  | keyError (k : String)
  | typeError
  deriving DecidableEq

/-- Python `d[k]` as a fallible operation. -/
def getItem (d : Dict) (k : String) : Except RecErr Value :=
  match dictLookup d k with
  | some v => .ok v
  | none => .error (.keyError k)

/-- Require a string value (`.split`/`.replace`/`join` on anything else
raises). -/
def Value.asStr : Value → Except RecErr Str
  | .str s => .ok s
  | _ => .error .typeError

/-- Require a list value (iterating anything else in the author comprehension
raises). -/
def Value.asArr : Value → Except RecErr (List Value)
  | .arr l => .ok l
  | _ => .error .typeError

/-- One step of the comprehension `[author["name"] for author in authors]`:
subscripting a non-mapping raises, a missing `"name"` key raises `KeyError`,
and a non-string name makes the subsequent `", ".join` raise. -/
def authorName : Value → Except RecErr Str
  | .obj fields =>
    match dictLookup fields "name" with
    | some (.str s) => .ok s
    | some _ => .error .typeError
    | none => .error (.keyError "name")
  | _ => .error .typeError

/-- The author-name comprehension, left to right, first error wins. -/
def authorNames : List Value → Except RecErr (List Str)
  | [] => .ok []
  | a :: rest =>
    match authorName a with
    | .error e => .error e
    | .ok n =>
      match authorNames rest with
      | .error e => .error e
      | .ok ns => .ok (n :: ns)

/-- Python `k.lower()` on a key (per-character ASCII lowering). -/
def lowerKey (k : String) : String := String.mk (k.toList.map Char.toLower)

/-- The dict comprehension `{k.lower(): v for k, v in data.items()}`. -/
def lowerKeys (d : Dict) : Dict :=
  d.foldl (fun acc kv => dictInsert acc (lowerKey kv.1) kv.2) []

/-- The whitelist of `process_arxiv_data`. -/
def desired_fields : List String :=
  ["id", "updated", "published", "title", "summary", "authors", "arxiv_comment"]

/-- The comprehension `{k: flat_data[k] for k in desired_fields if k in
flat_data}`. -/
def filterDesired (flat : Dict) : Dict :=
  desired_fields.foldl (fun acc k =>
    match dictLookup flat k with
    | some v => dictInsert acc k v
    | none => acc) []

/-- Source `process_arxiv_data`: lower-case the top-level keys, flatten,
filter to the whitelist, pop `id` into the derived `arxiv_code`, join the
author names (capped at 1000 characters), and clean the `title`, `summary`
and optional `arxiv_comment` strings.  `authors`, `title` and `summary` are
accessed unconditionally; only `arxiv_comment` (and the pass-through date
fields) are guarded by a presence test. -/
def process_arxiv_data (data : Dict) : Except RecErr Dict := do
  let flat := flatten_dict (lowerKeys data)
  let filtered := filterDesired flat
  let idv ← getItem filtered "id"
  let filtered := dictRemove filtered "id"
  let ids ← idv.asStr
  let filtered := dictInsert filtered "arxiv_code" (.str (arxivCodeOf ids))
  let authorsv ← getItem filtered "authors"
  let authorList ← authorsv.asArr
  let names ← authorNames authorList
  let filtered := dictInsert filtered "authors"
    (.str ((joinSep [',', ' '] names).take 1000))
  let titlev ← getItem filtered "title"
  let titleStr ← titlev.asStr
  let filtered := dictInsert filtered "title"
    (.str (pyReplace ['\n', ' '] [] titleStr))
  let summaryv ← getItem filtered "summary"
  let summaryStr ← summaryv.asStr
  let filtered := dictInsert filtered "summary"
    (.str (pyReplace ['\n'] [' '] summaryStr))
  match dictLookup filtered "arxiv_comment" with
  | some cv => do
    let cs ← cv.asStr
    pure (dictInsert filtered "arxiv_comment" (.str (pyReplace ['\n', ' '] [] cs)))
  | none => pure filtered

theorem dictLookup_dictInsert (d : Dict) (k : String) (v : Value) (key : String) :
    dictLookup (dictInsert d k v) key =
      if k = key then some v else dictLookup d key := by
  induction d with
  | nil => simp [dictInsert, dictLookup]
  | cons kv rest ih =>
    obtain ⟨k0, v0⟩ := kv
    rw [dictInsert]
    by_cases h0 : k0 = k
    · subst h0
      rw [if_pos rfl, dictLookup, dictLookup]
      by_cases hk : k0 = key <;> simp [hk]
    · rw [if_neg h0, dictLookup, dictLookup]
      by_cases hk : k0 = key
      · subst hk
        rw [if_pos rfl, if_pos rfl, if_neg (fun hkk => h0 hkk.symm)]
      · rw [if_neg hk, if_neg hk, ih]

theorem dictLookup_dictRemove (d : Dict) (k key : String) :
    dictLookup (dictRemove d k) key =
      if k = key then none else dictLookup d key := by
  induction d with
  | nil => simp [dictRemove, dictLookup]
  | cons kv rest ih =>
    obtain ⟨k0, v0⟩ := kv
    rw [dictRemove, List.filter_cons]
    rw [dictRemove] at ih
    by_cases h0 : k0 = k
    · subst h0
      rw [if_neg (by simp), ih, dictLookup]
      by_cases hk : k0 = key
      · simp [hk]
      · simp [hk]
    · rw [if_pos (by simp [h0]), dictLookup, dictLookup, ih]
      by_cases hk0 : k0 = key
      · have hkne : ¬ k = key := by
          rw [← hk0]
          exact fun h => h0 h.symm
        simp [hk0, hkne]
      · simp [hk0]

theorem dictLookup_mem {d : Dict} {k : String} {v : Value}
    (h : dictLookup d k = some v) : (k, v) ∈ d := by
  induction d with
  | nil => simp [dictLookup] at h
  | cons kv rest ih =>
    obtain ⟨k0, v0⟩ := kv
    rw [dictLookup] at h
    by_cases h0 : k0 = k
    · rw [if_pos h0] at h
      injection h with h
      subst h0
      subst h
      simp
    · rw [if_neg h0] at h
      simp [ih h]

theorem mem_dictInsert {d : Dict} {k : String} {v : Value} {kv : String × Value}
    (h : kv ∈ dictInsert d k v) : kv.2 = v ∨ kv ∈ d := by
  induction d with
  | nil =>
    simp [dictInsert] at h
    left
    simp [h]
  | cons kv0 rest ih =>
    obtain ⟨k0, v0⟩ := kv0
    rw [dictInsert] at h
    by_cases h0 : k0 = k
    · rw [if_pos h0] at h
      rcases List.mem_cons.mp h with h1 | h1
      · left; simp [h1]
      · right; simp [h1]
    · rw [if_neg h0] at h
      rcases List.mem_cons.mp h with h1 | h1
      · right; simp [h1]
      · rcases ih h1 with h2 | h2
        · left; exact h2
        · right; simp [h2]

theorem mem_dictUpdate {d kvs : Dict} {kv : String × Value}
    (h : kv ∈ dictUpdate d kvs) : (∃ kv2 ∈ kvs, kv.2 = kv2.2) ∨ kv ∈ d := by
  induction kvs generalizing d with
  | nil => right; exact h
  | cons kv0 rest ih =>
    rw [dictUpdate, List.foldl_cons] at h
    rcases ih h with h1 | h1
    · left
      obtain ⟨kv2, hkv2, he⟩ := h1
      exact ⟨kv2, by simp [hkv2], he⟩
    · rcases mem_dictInsert h1 with h2 | h2
      · left
        exact ⟨kv0, by simp, h2⟩
      · right; exact h2

theorem flattenInto_no_obj :
    ∀ (acc : Dict) (fields : List (String × Value)) (parent sep : String),
      (∀ kv ∈ acc, kv.2.isObj = false) →
      ∀ kv ∈ flattenInto acc fields parent sep, kv.2.isObj = false := by
  intro acc fields parent sep
  induction acc, fields, parent, sep using flattenInto.induct with
  | case1 acc parent sep =>
    intro hacc kv hkv
    rw [flattenInto] at hkv
    exact hacc kv hkv
  | case2 acc parent sep k rest newKey fs ih1 ih2 ih3 =>
    intro hacc kv hkv
    simp only [flattenInto] at hkv
    refine ih3 ?_ kv ?_
    · intro kv2 hkv2
      rcases mem_dictUpdate hkv2 with h1 | h1
      · obtain ⟨kv3, hkv3, he⟩ := h1
        rw [he]
        exact ih1 (by simp) kv3 hkv3
      · exact hacc kv2 h1
    · exact hkv
  | case3 acc parent sep k v rest newKey hne ih =>
    intro hacc kv hkv
    simp only [flattenInto] at hkv
    cases v with
    | obj fs => exact absurd rfl (hne fs)
    | str s =>
      refine ih ?_ kv hkv
      intro kv2 hkv2
      rcases mem_dictInsert hkv2 with h2 | h2
      · rw [h2]
        rfl
      · exact hacc kv2 h2
    | num n =>
      refine ih ?_ kv hkv
      intro kv2 hkv2
      rcases mem_dictInsert hkv2 with h2 | h2
      · rw [h2]
        rfl
      · exact hacc kv2 h2
    | arr l =>
      refine ih ?_ kv hkv
      intro kv2 hkv2
      rcases mem_dictInsert hkv2 with h2 | h2
      · rw [h2]
        rfl
      · exact hacc kv2 h2

theorem dictLookup_filterFold (flat : Dict) (ks : List String) (acc : Dict)
    (key : String) :
    dictLookup (ks.foldl (fun acc k =>
      match dictLookup flat k with
      | some v => dictInsert acc k v
      | none => acc) acc) key =
    if key ∈ ks ∧ (dictLookup flat key).isSome then dictLookup flat key
    else dictLookup acc key := by
  induction ks generalizing acc with
  | nil => simp
  | cons k0 ks ih =>
    rw [List.foldl_cons, ih]
    by_cases hks : key ∈ ks ∧ (dictLookup flat key).isSome
    · rw [if_pos hks, if_pos ⟨List.mem_cons_of_mem _ hks.1, hks.2⟩]
    · rw [if_neg hks]
      by_cases hkey : key = k0
      · subst hkey
        rcases hf : dictLookup flat key with _ | v0
        · rw [if_neg (by
            intro hcon
            simp at hcon)]
        · rw [if_pos ⟨by simp, by simp [hf]⟩, dictLookup_dictInsert, if_pos rfl]
      · have hcond : ¬ (key ∈ k0 :: ks ∧ (dictLookup flat key).isSome) := by
          intro hcon
          rcases List.mem_cons.mp hcon.1 with h1 | h1
          · exact hkey h1
          · exact hks ⟨h1, hcon.2⟩
        rw [if_neg hcond]
        rcases hf : dictLookup flat k0 with _ | v0
        · rfl
        · rw [dictLookup_dictInsert, if_neg (fun h => hkey h.symm)]

theorem dictLookup_filterDesired (flat : Dict) (key : String) :
    dictLookup (filterDesired flat) key =
      if key ∈ desired_fields ∧ (dictLookup flat key).isSome then
        dictLookup flat key
      else none := by
  rw [filterDesired, dictLookup_filterFold]
  rfl

theorem filterDesired_no_obj (flat : Dict)
    (hflat : ∀ kv ∈ flat, kv.2.isObj = false) :
    ∀ kv ∈ filterDesired flat, kv.2.isObj = false := by
  rw [filterDesired]
  have hgen : ∀ (ks : List String) (acc : Dict),
      (∀ kv ∈ acc, kv.2.isObj = false) →
      ∀ kv ∈ ks.foldl (fun acc k =>
        match dictLookup flat k with
        | some v => dictInsert acc k v
        | none => acc) acc, kv.2.isObj = false := by
    intro ks
    induction ks with
    | nil => intro acc hacc kv hkv; exact hacc kv hkv
    | cons k0 ks ih =>
      intro acc hacc kv hkv
      rw [List.foldl_cons] at hkv
      refine ih _ ?_ kv hkv
      intro kv2 hkv2
      rcases hf : dictLookup flat k0 with _ | v0
      · rw [hf] at hkv2
        exact hacc kv2 hkv2
      · rw [hf] at hkv2
        rcases mem_dictInsert hkv2 with h2 | h2
        · rw [h2]
          have := hflat (k0, v0) (dictLookup_mem hf)
          exact this
        · exact hacc kv2 h2
  exact hgen desired_fields [] (by simp)

theorem flatten_dict_no_obj (d : Dict) :
    ∀ kv ∈ flatten_dict d, kv.2.isObj = false := by
  rw [flatten_dict]
  exact flattenInto_no_obj [] d "" "_" (by simp)

theorem authorNames_ok {l : List Value}
    (h : ∀ a ∈ l, ∃ fields nm, a = Value.obj fields ∧
      dictLookup fields "name" = some (.str nm)) :
    ∃ ns, authorNames l = .ok ns := by
  induction l with
  | nil => exact ⟨[], rfl⟩
  | cons a rest ih =>
    obtain ⟨fields, nm, ha, hnm⟩ := h a (by simp)
    obtain ⟨ns, hns⟩ := ih (fun b hb => h b (by simp [hb]))
    refine ⟨nm :: ns, ?_⟩
    rw [authorNames, ha, authorName, hnm, hns]

theorem except_bind_ok {α β : Type} {x : Except RecErr α} {f : α → Except RecErr β}
    {out : β} (h : x >>= f = .ok out) : ∃ a, x = .ok a ∧ f a = .ok out := by
  cases x with
  | error e => simp [Bind.bind, Except.bind] at h
  | ok a =>
    refine ⟨a, rfl, ?_⟩
    simpa [Bind.bind, Except.bind] using h

/-- C5 counterexample: a record whose flattened form contains the identifier
but no `authors` field fails with a `KeyError` on `"authors"` (the code
subscripts `filtered_data["authors"]` unconditionally), although the claim
says every field other than the identifier is optional. -/
theorem process_arxiv_data_requires_authors :
    process_arxiv_data [("id", Value.str ['x'])] = .error (.keyError "authors") := by
  simp [process_arxiv_data, flatten_dict, flattenInto, lowerKeys, lowerKey,
    filterDesired, desired_fields, dictLookup, dictInsert, dictRemove, dictUpdate,
    getItem, Value.asStr, bind, Except.bind, arxivCodeOf, pySplit, List.isPrefixOf,
    consHead]

/-- C5 (amended): normalization fails with `KeyError "id"` when the identifier
is absent after flattening; but `authors` (a list of records each carrying a
string `name`), `title` and `summary` (strings) are also required.  Only the
date fields and `arxiv_comment` are optional: any record with the four
required fields present and well-typed is normalized successfully, whether or
not the optional fields are present. -/
theorem process_arxiv_data_success_conditions (data : Dict) :
    ((∃ s, dictLookup (flatten_dict (lowerKeys data)) "id" = some (.str s)) →
     (∃ t, dictLookup (flatten_dict (lowerKeys data)) "title" = some (.str t)) →
     (∃ u, dictLookup (flatten_dict (lowerKeys data)) "summary" = some (.str u)) →
     (∃ l, dictLookup (flatten_dict (lowerKeys data)) "authors" = some (.arr l) ∧
        ∀ a ∈ l, ∃ fields nm, a = Value.obj fields ∧
          dictLookup fields "name" = some (.str nm)) →
     (dictLookup (flatten_dict (lowerKeys data)) "arxiv_comment" = none ∨
      ∃ cs, dictLookup (flatten_dict (lowerKeys data)) "arxiv_comment" =
        some (.str cs)) →
     ∃ out, process_arxiv_data data = .ok out) ∧
    (dictLookup (flatten_dict (lowerKeys data)) "id" = none →
      process_arxiv_data data = .error (.keyError "id")) := by
  constructor
  · rintro ⟨s, hs⟩ ⟨t, ht⟩ ⟨u, hu⟩ ⟨l, hl, hlw⟩ hcm
    obtain ⟨ns, hns⟩ := authorNames_ok hlw
    have h1 : getItem (filterDesired (flatten_dict (lowerKeys data))) "id" =
        .ok (.str s) := by
      rw [getItem, dictLookup_filterDesired,
        if_pos ⟨by simp [desired_fields], by simp [hs]⟩, hs]
    have h2 : getItem (dictInsert (dictRemove
        (filterDesired (flatten_dict (lowerKeys data))) "id") "arxiv_code"
        (.str (arxivCodeOf s))) "authors" = .ok (.arr l) := by
      rw [getItem, dictLookup_dictInsert, if_neg (by decide),
        dictLookup_dictRemove, if_neg (by decide), dictLookup_filterDesired,
        if_pos ⟨by simp [desired_fields], by simp [hl]⟩, hl]
    have h3 : getItem (dictInsert (dictInsert (dictRemove
        (filterDesired (flatten_dict (lowerKeys data))) "id") "arxiv_code"
        (.str (arxivCodeOf s))) "authors"
        (.str ((joinSep [',', ' '] ns).take 1000))) "title" = .ok (.str t) := by
      rw [getItem, dictLookup_dictInsert, if_neg (by decide),
        dictLookup_dictInsert, if_neg (by decide), dictLookup_dictRemove,
        if_neg (by decide), dictLookup_filterDesired,
        if_pos ⟨by simp [desired_fields], by simp [ht]⟩, ht]
    have h4 : getItem (dictInsert (dictInsert (dictInsert (dictRemove
        (filterDesired (flatten_dict (lowerKeys data))) "id") "arxiv_code"
        (.str (arxivCodeOf s))) "authors"
        (.str ((joinSep [',', ' '] ns).take 1000))) "title"
        (.str (pyReplace ['\n', ' '] [] t))) "summary" = .ok (.str u) := by
      rw [getItem, dictLookup_dictInsert, if_neg (by decide),
        dictLookup_dictInsert, if_neg (by decide), dictLookup_dictInsert,
        if_neg (by decide), dictLookup_dictRemove, if_neg (by decide),
        dictLookup_filterDesired,
        if_pos ⟨by simp [desired_fields], by simp [hu]⟩, hu]
    have h5 : dictLookup (dictInsert (dictInsert (dictInsert (dictInsert
        (dictRemove (filterDesired (flatten_dict (lowerKeys data))) "id")
        "arxiv_code" (.str (arxivCodeOf s))) "authors"
        (.str ((joinSep [',', ' '] ns).take 1000))) "title"
        (.str (pyReplace ['\n', ' '] [] t))) "summary"
        (.str (pyReplace ['\n'] [' '] u))) "arxiv_comment" =
        dictLookup (flatten_dict (lowerKeys data)) "arxiv_comment" := by
      rw [dictLookup_dictInsert, if_neg (by decide), dictLookup_dictInsert,
        if_neg (by decide), dictLookup_dictInsert, if_neg (by decide),
        dictLookup_dictInsert, if_neg (by decide), dictLookup_dictRemove,
        if_neg (by decide), dictLookup_filterDesired]
      rcases hcf : dictLookup (flatten_dict (lowerKeys data)) "arxiv_comment"
        with _ | cv
      · rw [if_neg (by simp)]
      · rw [if_pos ⟨by simp [desired_fields], by simp⟩]
    rcases hcm with hnone | ⟨cs, hsome⟩
    · refine ⟨dictInsert (dictInsert (dictInsert (dictInsert
        (dictRemove (filterDesired (flatten_dict (lowerKeys data))) "id")
        "arxiv_code" (.str (arxivCodeOf s))) "authors"
        (.str ((joinSep [',', ' '] ns).take 1000))) "title"
        (.str (pyReplace ['\n', ' '] [] t))) "summary"
        (.str (pyReplace ['\n'] [' '] u)), ?_⟩
      simp only [process_arxiv_data, h1, h2, h3, h4, h5, hns, hnone,
        Value.asStr, Value.asArr, bind, Except.bind, pure, Except.pure]
    · refine ⟨dictInsert (dictInsert (dictInsert (dictInsert (dictInsert
        (dictRemove (filterDesired (flatten_dict (lowerKeys data))) "id")
        "arxiv_code" (.str (arxivCodeOf s))) "authors"
        (.str ((joinSep [',', ' '] ns).take 1000))) "title"
        (.str (pyReplace ['\n', ' '] [] t))) "summary"
        (.str (pyReplace ['\n'] [' '] u))) "arxiv_comment"
        (.str (pyReplace ['\n', ' '] [] cs)), ?_⟩
      simp only [process_arxiv_data, h1, h2, h3, h4, h5, hns, hsome,
        Value.asStr, Value.asArr, bind, Except.bind, pure, Except.pure]
  · intro hid
    have h0 : getItem (filterDesired (flatten_dict (lowerKeys data))) "id" =
        .error (.keyError "id") := by
      rw [getItem, dictLookup_filterDesired, if_neg (by simp [hid])]
    simp only [process_arxiv_data, h0, bind, Except.bind]

/-- A well-formed record carrying only the four required fields, for the C5
witness. -/
def wfRecord : Dict :=
  [("id", .str ['x']), ("title", .str ['t']), ("summary", .str ['s']),
   ("authors", .arr [.obj [("name", .str ['A'])]])]

/-- Witness for the amended C5 theorem: `wfRecord` has no `updated`,
`published` or `arxiv_comment` field and is normalized successfully. -/
theorem process_arxiv_data_success_witness :
    ∃ out, process_arxiv_data wfRecord = .ok out :=
  (process_arxiv_data_success_conditions wfRecord).1
    ⟨['x'], by
      simp [wfRecord, flatten_dict, flattenInto, lowerKeys, lowerKey,
        dictInsert, dictUpdate, dictLookup]⟩
    ⟨['t'], by
      simp [wfRecord, flatten_dict, flattenInto, lowerKeys, lowerKey,
        dictInsert, dictUpdate, dictLookup]⟩
    ⟨['s'], by
      simp [wfRecord, flatten_dict, flattenInto, lowerKeys, lowerKey,
        dictInsert, dictUpdate, dictLookup]⟩
    ⟨[.obj [("name", .str ['A'])]], by
      simp [wfRecord, flatten_dict, flattenInto, lowerKeys, lowerKey,
        dictInsert, dictUpdate, dictLookup], by
      intro a ha
      simp at ha
      subst ha
      exact ⟨[("name", .str ['A'])], ['A'], rfl, by simp [dictLookup]⟩⟩
    (Or.inl (by
      simp [wfRecord, flatten_dict, flattenInto, lowerKeys, lowerKey,
        dictInsert, dictUpdate, dictLookup]))

/-- Input record for the C6 counterexample: the whitelisted `updated` field
holds a list containing a mapping. -/
def nestedRecord : Dict :=
  [("id", .str ['x']),
   ("title", .str ['t']),
   ("summary", .str ['s']),
   ("authors", .arr [.obj [("name", .str ['A'])]]),
   ("updated", .arr [.obj [("z", .num 1)]])]

/-- Normalized output of `nestedRecord`. -/
def nestedOut : Dict :=
  [("updated", .arr [.obj [("z", .num 1)]]),
   ("title", .str ['t']),
   ("summary", .str ['s']),
   ("authors", .str ['A']),
   ("arxiv_code", .str ['x'])]

/-- C6 counterexample: flattening does not descend into lists, so a
well-formed record whose `updated` field holds a list containing a mapping is
normalized successfully with that list passed through unchanged — the output
value under `updated` is a collection containing a mapping, not a scalar. -/
theorem process_arxiv_data_passes_through_array :
    process_arxiv_data nestedRecord = .ok nestedOut ∧
    dictLookup nestedOut "updated" = some (.arr [.obj [("z", .num 1)]]) ∧
    (Value.arr [.obj [("z", .num 1)]]).isScalar = false := by
  refine ⟨?_, by simp [nestedOut, dictLookup], rfl⟩
  have e1 : lowerKeys nestedRecord = nestedRecord := by
    simp [nestedRecord, lowerKeys, lowerKey, dictInsert]
  have e2 : flatten_dict nestedRecord = nestedRecord := by
    simp [nestedRecord, flatten_dict, flattenInto, dictInsert, dictUpdate]
  have e3 : filterDesired nestedRecord =
      [("id", .str ['x']),
       ("updated", .arr [.obj [("z", .num 1)]]),
       ("title", .str ['t']),
       ("summary", .str ['s']),
       ("authors", .arr [.obj [("name", .str ['A'])]])] := by
    simp [nestedRecord, filterDesired, desired_fields, dictLookup, dictInsert]
  have e4 : arxivCodeOf ['x'] = ['x'] := by
    simp [arxivCodeOf, pySplit, List.isPrefixOf, consHead]
  have e5 : authorNames [.obj [("name", .str ['A'])]] = .ok [['A']] := by
    simp [authorNames, authorName, dictLookup]
  have e6 : pyReplace ['\n', ' '] [] ['t'] = ['t'] := by
    simp [pyReplace, List.isPrefixOf]
  have e7 : pyReplace ['\n'] [' '] ['s'] = ['s'] := by
    simp [pyReplace, List.isPrefixOf]
  simp only [process_arxiv_data, e1, e2, e3]
  simp only [getItem, dictLookup, bind, Except.bind, String.reduceEq, reduceIte]
  simp only [Value.asStr, dictRemove, List.filter, dictInsert, String.reduceEq,
    reduceIte, decide_not]
  simp only [e4, e5, Value.asArr, getItem, dictLookup, bind, Except.bind,
    dictInsert, String.reduceEq, reduceIte]
  simp only [joinSep, List.take, e6, e7, getItem, dictLookup, dictInsert, bind,
    Except.bind, Value.asStr, pure, Except.pure, nestedOut, String.reduceEq,
    reduceIte]

/-- C6 (amended): flattening fully resolves nested mappings, so no value of a
successfully normalized record is itself a mapping; but values need not be
scalars, because lists (possibly containing mappings) pass through the
flattening and the whitelist untouched (see the counterexample). -/
theorem process_arxiv_data_no_nested_mapping (data : Dict) (out : Dict)
    (h : process_arxiv_data data = .ok out) :
    ∀ kv ∈ out, kv.2.isObj = false := by
  have hP0 : ∀ kv ∈ filterDesired (flatten_dict (lowerKeys data)),
      kv.2.isObj = false :=
    filterDesired_no_obj _ (flatten_dict_no_obj _)
  simp only [process_arxiv_data] at h
  obtain ⟨idv, hidv, h⟩ := except_bind_ok h
  obtain ⟨ids, hids, h⟩ := except_bind_ok h
  obtain ⟨authorsv, hauthorsv, h⟩ := except_bind_ok h
  obtain ⟨authorList, hauthorList, h⟩ := except_bind_ok h
  obtain ⟨names, hnames, h⟩ := except_bind_ok h
  obtain ⟨titlev, htitlev, h⟩ := except_bind_ok h
  obtain ⟨titleStr, htitleStr, h⟩ := except_bind_ok h
  obtain ⟨summaryv, hsummaryv, h⟩ := except_bind_ok h
  obtain ⟨summaryStr, hsummaryStr, h⟩ := except_bind_ok h
  have hP5 : ∀ kv ∈ dictInsert (dictInsert (dictInsert (dictInsert
      (dictRemove (filterDesired (flatten_dict (lowerKeys data))) "id")
      "arxiv_code" (.str (arxivCodeOf ids))) "authors"
      (.str ((joinSep [',', ' '] names).take 1000))) "title"
      (.str (pyReplace ['\n', ' '] [] titleStr))) "summary"
      (.str (pyReplace ['\n'] [' '] summaryStr)), kv.2.isObj = false := by
    intro kv hkv
    rcases mem_dictInsert hkv with h1 | h1
    · rw [h1]; rfl
    rcases mem_dictInsert h1 with h2 | h2
    · rw [h2]; rfl
    rcases mem_dictInsert h2 with h3 | h3
    · rw [h3]; rfl
    rcases mem_dictInsert h3 with h4 | h4
    · rw [h4]; rfl
    exact hP0 kv (List.mem_filter.mp h4).1
  split at h
  · rename_i cv heq
    obtain ⟨cs, hcs, h⟩ := except_bind_ok h
    simp only [pure, Except.pure, Except.ok.injEq] at h
    subst h
    intro kv hkv
    rcases mem_dictInsert hkv with h1 | h1
    · rw [h1]; rfl
    · exact hP5 kv h1
  · simp only [pure, Except.pure, Except.ok.injEq] at h
    subst h
    exact hP5

/-- Witness for the amended C6 theorem: the theorem applied to the concrete
record `wfRecord`, whose normalization succeeds, at the `arxiv_code` entry of
its output. -/
theorem process_arxiv_data_no_nested_mapping_witness :
    (Value.str ['x']).isObj = false :=
  process_arxiv_data_no_nested_mapping wfRecord
    [("title", Value.str ['t']), ("summary", Value.str ['s']),
      ("authors", Value.str ['A']), ("arxiv_code", Value.str ['x'])]
    (by
      have e1 : lowerKeys wfRecord = wfRecord := by
        simp [wfRecord, lowerKeys, lowerKey, dictInsert]
      have e2 : flatten_dict wfRecord = wfRecord := by
        simp [wfRecord, flatten_dict, flattenInto, dictInsert, dictUpdate]
      have e3 : filterDesired wfRecord =
          [("id", .str ['x']), ("title", .str ['t']), ("summary", .str ['s']),
           ("authors", .arr [.obj [("name", .str ['A'])]])] := by
        simp [wfRecord, filterDesired, desired_fields, dictLookup, dictInsert]
      have e4 : arxivCodeOf ['x'] = ['x'] := by
        simp [arxivCodeOf, pySplit, List.isPrefixOf, consHead]
      have e5 : authorNames [.obj [("name", .str ['A'])]] = .ok [['A']] := by
        simp [authorNames, authorName, dictLookup]
      have e6 : pyReplace ['\n', ' '] [] ['t'] = ['t'] := by
        simp [pyReplace, List.isPrefixOf]
      have e7 : pyReplace ['\n'] [' '] ['s'] = ['s'] := by
        simp [pyReplace, List.isPrefixOf]
      simp only [process_arxiv_data, e1, e2, e3]
      simp only [getItem, dictLookup, bind, Except.bind, String.reduceEq, reduceIte]
      simp only [Value.asStr, dictRemove, List.filter, dictInsert, String.reduceEq,
        reduceIte, decide_not]
      simp only [e4, e5, Value.asArr, getItem, dictLookup, bind, Except.bind,
        dictInsert, String.reduceEq, reduceIte]
      simp only [joinSep, List.take, e6, e7, getItem, dictLookup, dictInsert, bind,
        Except.bind, Value.asStr, pure, Except.pure, String.reduceEq, reduceIte])
    ("arxiv_code", Value.str ['x']) (by simp)
